import Mathlib

/-!
Verification of the scanline-encoding pipeline of `tools/ipptransform.c`:
the PCL PackBits-style run-length compressor and its blank-line skip
logic, ordered dithering with MSB-first bit packing, band sizing,
duplex back-side transforms, resolution negotiation, the RGBX pixel
repackers and the `write_fd` retry loop.

Scanline bytes are modelled as `Nat` values (`< 256` where it matters);
32-bit machine words are `Nat` with explicit `% 2 ^ 32`, and the
word-level aliasing done by the repackers is made explicit through
little-endian byte/word conversion functions.
-/

set_option maxRecDepth 10000

namespace IppTransform

/-- Scan of a repeated-byte run inside the compression loop of
`pcl_write_line`: mirrors `outptr ++; count = 2;` followed by
`while (outptr < (outend - 1) && outptr[0] == outptr[1] && count < 127)`
and the final `*compptr++ = (unsigned char)(257 - count); *compptr++ = *outptr++;`.
The head of the argument list is the byte `outptr` points at; the result is
the final count, the emitted byte and the input remaining after `outptr++`. -/
def pcl_runScan (count : Nat) : List Nat → Nat × Nat × List Nat
  | a :: b :: rest =>
      if a = b ∧ count < 127 then pcl_runScan (count + 1) (b :: rest)
      else (count, a, b :: rest)
  | [a] => (count, a, [])
  | [] => (count, 0, [])

/-- Scan of a literal (non-repeated) run inside the compression loop of
`pcl_write_line`: mirrors `start = outptr; outptr ++; count = 1;` followed by
`while (outptr < (outend - 1) && outptr[0] != outptr[1] && count < 127)`.
`acc` accumulates the bytes from `start` that the final
`memcpy(compptr, start, count)` copies out. -/
def pcl_litScan (count : Nat) (acc : List Nat) : List Nat → Nat × List Nat × List Nat
  | a :: b :: rest =>
      if a ≠ b ∧ count < 127 then pcl_litScan (count + 1) (acc ++ [a]) (b :: rest)
      else (count, acc, a :: b :: rest)
  | l => (count, acc, l)

/-- The `while (outptr < outend)` compression loop of `pcl_write_line`
(the three branches: single byte on the end, repeated sequence,
non-repeated sequence), fuelled so that the definition is structurally
recursive; `pcl_compress` supplies sufficient fuel. -/
def pcl_compress_loop : Nat → List Nat → List Nat
  | 0, _ => []
  | _ + 1, [] => []
  | _ + 1, [a] => [0, a]
  | fuel + 1, a :: b :: rest =>
      if a = b then
        let r := pcl_runScan 2 (b :: rest)
        (257 - r.1) :: r.2.1 :: pcl_compress_loop fuel r.2.2
      else
        let r := pcl_litScan 1 [a] (b :: rest)
        (r.1 - 1) :: (r.2.1 ++ pcl_compress_loop fuel r.2.2)

/-- The PackBits-style compressor of `pcl_write_line`: a lone trailing byte
becomes `(0, b)`, a run of `2 ≤ count ≤ 127` identical bytes becomes
`(257 - count, b)`, and a literal run of `1 ≤ count ≤ 127` bytes becomes
`(count - 1)` followed by the bytes. -/
def pcl_compress (l : List Nat) : List Nat := pcl_compress_loop l.length l

/-- Decoder for the compressed payload, written from the claim text:
a header `h = 257 - n ∈ [130, 255]` together with the next byte decodes to
`n` repeats of that byte, and a header `h = n - 1 ∈ [0, 127]` is followed
by `n` literal bytes, `(0, b)` being the single byte `b`.
Fuelled for structural recursion. -/
def pcl_decompress_loop : Nat → List Nat → List Nat
  | 0, _ => []
  | _ + 1, [] => []
  | fuel + 1, h :: rest =>
      if 128 ≤ h then
        match rest with
        | b :: rest2 => List.replicate (257 - h) b ++ pcl_decompress_loop fuel rest2
        | [] => []
      else
        rest.take (h + 1) ++ pcl_decompress_loop fuel (rest.drop (h + 1))

/-- Decoder entry point with sufficient fuel. -/
def pcl_decompress (l : List Nat) : List Nat := pcl_decompress_loop l.length l

example : pcl_compress [7] = [0, 7] := by decide
example : pcl_compress [5, 5, 5] = [254, 5] := by decide
example : pcl_compress [1, 2, 3] = [1, 1, 2, 0, 3] := by decide
example : pcl_decompress (pcl_compress [1, 2, 3]) = [1, 2, 3] := by decide
example : pcl_decompress (pcl_compress (List.replicate 255 9)) = List.replicate 255 9 := by decide
example : pcl_decompress (pcl_compress (List.range 128)) = List.range 128 := by decide

/-- Characterisation of the run scan: the count only grows (staying at or
below `127` once it is), the consumed input is a block of copies of the
emitted byte, and the remainder is a suffix of the input. -/
theorem pcl_runScan_spec (l : List Nat) : ∀ count : Nat, l ≠ [] →
    count ≤ (pcl_runScan count l).1 ∧
    ((pcl_runScan count l).1 ≤ count ∨ (pcl_runScan count l).1 ≤ 127) ∧
    List.replicate ((pcl_runScan count l).1 - count + 1) (pcl_runScan count l).2.1 ++
      (pcl_runScan count l).2.2 = l := by
  induction l with
  | nil => intro count h; exact absurd rfl h
  | cons a t ih =>
    intro count _
    cases t with
    | nil => simp [pcl_runScan]
    | cons b rest =>
      by_cases hc : a = b ∧ count < 127
      · have hrec : pcl_runScan count (a :: b :: rest) = pcl_runScan (count + 1) (b :: rest) := by
          rw [pcl_runScan, if_pos hc]
        obtain ⟨h1, h2, h3⟩ := ih (count + 1) (by simp)
        rw [hrec]
        refine ⟨by omega, by omega, ?_⟩
        have hk : (pcl_runScan (count + 1) (b :: rest)).1 - count + 1 =
            ((pcl_runScan (count + 1) (b :: rest)).1 - (count + 1) + 1) + 1 := by omega
        rw [hk, List.replicate_succ, List.cons_append, h3]
        have hb : (pcl_runScan (count + 1) (b :: rest)).2.1 = b := by
          have := h3
          rw [List.replicate_succ, List.cons_append] at this
          exact (List.cons.injEq _ _ _ _).mp this |>.1
        rw [hb, hc.1]
      · rw [pcl_runScan, if_neg hc]
        simp

/-- Characterisation of the literal scan: the count only grows (staying at
or below `127` once it is), the accumulated literal bytes followed by the
remainder reproduce the input, and the number of accumulated bytes tracks
the count. -/
theorem pcl_litScan_spec (l : List Nat) : ∀ (count : Nat) (acc : List Nat),
    count ≤ (pcl_litScan count acc l).1 ∧
    ((pcl_litScan count acc l).1 ≤ count ∨ (pcl_litScan count acc l).1 ≤ 127) ∧
    (pcl_litScan count acc l).2.1 ++ (pcl_litScan count acc l).2.2 = acc ++ l ∧
    (pcl_litScan count acc l).2.1.length + count = acc.length + (pcl_litScan count acc l).1 := by
  induction l with
  | nil => intro count acc; simp [pcl_litScan]
  | cons a t ih =>
    intro count acc
    cases t with
    | nil => simp [pcl_litScan]
    | cons b rest =>
      by_cases hc : a ≠ b ∧ count < 127
      · have hrec : pcl_litScan count acc (a :: b :: rest) =
            pcl_litScan (count + 1) (acc ++ [a]) (b :: rest) := by
          rw [pcl_litScan, if_pos hc]
        obtain ⟨h1, h2, h3, h4⟩ := ih (count + 1) (acc ++ [a])
        rw [hrec]
        refine ⟨by omega, by omega, ?_, ?_⟩
        · rw [h3]; simp
        · simp at h4 ⊢; omega
      · rw [pcl_litScan, if_neg hc]
        simp

/-- The suffix left over by the run scan is strictly shorter than the input. -/
theorem pcl_runScan_rest_length (l : List Nat) (count : Nat) (h : l ≠ []) :
    (pcl_runScan count l).2.2.length < l.length := by
  obtain ⟨-, -, h3⟩ := pcl_runScan_spec l count h
  have := congrArg List.length h3
  simp at this
  omega

/-- The suffix left over by the literal scan is no longer than the input. -/
theorem pcl_litScan_rest_length (l : List Nat) (count : Nat) (acc : List Nat) :
    (pcl_litScan count acc l).2.2.length + ((pcl_litScan count acc l).1 - count) ≤ l.length := by
  obtain ⟨h1, -, h3, h4⟩ := pcl_litScan_spec l count acc
  have := congrArg List.length h3
  simp at this
  omega

/-- The compression loop does not depend on the fuel, as long as the fuel
covers the length of the input. -/
theorem pcl_compress_loop_fuel_eq : ∀ (f1 f2 : Nat) (l : List Nat),
    l.length ≤ f1 → l.length ≤ f2 → pcl_compress_loop f1 l = pcl_compress_loop f2 l := by
  intro f1
  induction f1 with
  | zero =>
    intro f2 l h1 h2
    have : l = [] := by
      cases l with
      | nil => rfl
      | cons a t => simp at h1
    subst this
    cases f2 <;> rfl
  | succ n ih =>
    intro f2 l h1 h2
    match l, h1, h2 with
    | [], _, _ => cases f2 <;> rfl
    | [a], _, h2 =>
      match f2, h2 with
      | g + 1, _ => rfl
    | a :: b :: rest, h1, h2 =>
      match f2, h2 with
      | g + 1, h2 =>
        simp only [pcl_compress_loop]
        by_cases hab : a = b
        · rw [if_pos hab, if_pos hab]
          have hlen := pcl_runScan_rest_length (b :: rest) 2 (by simp)
          simp at hlen h1 h2
          rw [ih g _ (by omega) (by omega)]
        · rw [if_neg hab, if_neg hab]
          have hlen := pcl_litScan_rest_length (b :: rest) 1 [a]
          simp at hlen h1 h2
          rw [ih g _ (by omega) (by omega)]

/-- Running the compression loop with any sufficient fuel computes
`pcl_compress`. -/
theorem pcl_compress_loop_fuel (f : Nat) (l : List Nat) (h : l.length ≤ f) :
    pcl_compress_loop f l = pcl_compress l :=
  pcl_compress_loop_fuel_eq f l.length l h le_rfl

/-- Unfolding equation of `pcl_compress` on inputs of length at least two. -/
theorem pcl_compress_cons2 (a b : Nat) (rest : List Nat) :
    pcl_compress (a :: b :: rest) =
      if a = b then
        (257 - (pcl_runScan 2 (b :: rest)).1) :: (pcl_runScan 2 (b :: rest)).2.1 ::
          pcl_compress (pcl_runScan 2 (b :: rest)).2.2
      else
        ((pcl_litScan 1 [a] (b :: rest)).1 - 1) ::
          ((pcl_litScan 1 [a] (b :: rest)).2.1 ++
            pcl_compress (pcl_litScan 1 [a] (b :: rest)).2.2) := by
  show pcl_compress_loop (rest.length + 2) (a :: b :: rest) = _
  simp only [pcl_compress_loop]
  by_cases hab : a = b
  · rw [if_pos hab, if_pos hab]
    have hlen := pcl_runScan_rest_length (b :: rest) 2 (by simp)
    simp at hlen
    rw [pcl_compress_loop_fuel _ _ (by omega)]
  · rw [if_neg hab, if_neg hab]
    have hlen := pcl_litScan_rest_length (b :: rest) 1 [a]
    simp at hlen
    rw [pcl_compress_loop_fuel _ _ (by omega)]

/-- The decoder loop does not depend on the fuel, as long as the fuel covers
the length of the input. -/
theorem pcl_decompress_loop_fuel_eq : ∀ (f1 f2 : Nat) (l : List Nat),
    l.length ≤ f1 → l.length ≤ f2 → pcl_decompress_loop f1 l = pcl_decompress_loop f2 l := by
  intro f1
  induction f1 with
  | zero =>
    intro f2 l h1 h2
    have : l = [] := by
      cases l with
      | nil => rfl
      | cons a t => simp at h1
    subst this
    cases f2 <;> rfl
  | succ n ih =>
    intro f2 l h1 h2
    match l, h1, h2 with
    | [], _, _ => cases f2 <;> rfl
    | h :: rest, h1, h2 =>
      match f2, h2 with
      | g + 1, h2 =>
        simp only [pcl_decompress_loop]
        by_cases hh : 128 ≤ h
        · rw [if_pos hh, if_pos hh]
          match rest with
          | [] => rfl
          | b :: rest2 =>
            simp at h1 h2
            show List.replicate (257 - h) b ++ pcl_decompress_loop n rest2 =
              List.replicate (257 - h) b ++ pcl_decompress_loop g rest2
            rw [ih g rest2 (by omega) (by omega)]
        · rw [if_neg hh, if_neg hh]
          have := List.length_drop (h + 1) rest
          simp at h1 h2
          rw [ih g _ (by omega) (by omega)]

/-- Running the decoder loop with any sufficient fuel computes
`pcl_decompress`. -/
theorem pcl_decompress_loop_fuel (f : Nat) (l : List Nat) (h : l.length ≤ f) :
    pcl_decompress_loop f l = pcl_decompress l :=
  pcl_decompress_loop_fuel_eq f l.length l h le_rfl

/-- Unfolding equation of the decoder on a repeat header (`128 ≤ h`). -/
theorem pcl_decompress_run (h b : Nat) (rest : List Nat) (hh : 128 ≤ h) :
    pcl_decompress (h :: b :: rest) = List.replicate (257 - h) b ++ pcl_decompress rest := by
  show pcl_decompress_loop (rest.length + 2) (h :: b :: rest) = _
  simp only [pcl_decompress_loop, if_pos hh]
  rw [pcl_decompress_loop_fuel _ _ (by omega)]

/-- Unfolding equation of the decoder on a literal header (`h < 128`):
`h + 1` literal bytes follow. -/
theorem pcl_decompress_lit (h : Nat) (rest : List Nat) (hh : h < 128) :
    pcl_decompress (h :: rest) = rest.take (h + 1) ++ pcl_decompress (rest.drop (h + 1)) := by
  show pcl_decompress_loop (rest.length + 1) (h :: rest) = _
  simp only [pcl_decompress_loop, if_neg (by omega : ¬ 128 ≤ h)]
  have := List.length_drop (h + 1) rest
  rw [pcl_decompress_loop_fuel _ _ (by omega)]

/-- Round-trip of the compressor against the claim's decoder, by strong
induction on the length of the packed scanline. -/
theorem pcl_rle_roundtrip_aux : ∀ (bound : Nat) (l : List Nat), l.length ≤ bound →
    pcl_decompress (pcl_compress l) = l := by
  intro bound
  induction bound with
  | zero =>
    intro l h
    have : l = [] := by
      cases l with
      | nil => rfl
      | cons a t => simp at h
    subst this; rfl
  | succ n ih =>
    intro l hl
    match l with
    | [] => rfl
    | [a] =>
      show pcl_decompress [0, a] = [a]
      rw [pcl_decompress_lit 0 [a] (by omega)]
      rfl
    | a :: b :: rest =>
      rw [pcl_compress_cons2]
      by_cases hab : a = b
      · rw [if_pos hab]
        obtain ⟨h1, h2, h3⟩ := pcl_runScan_spec (b :: rest) 2 (by simp)
        have hn127 : (pcl_runScan 2 (b :: rest)).1 ≤ 127 := by omega
        have hrest := pcl_runScan_rest_length (b :: rest) 2 (by simp)
        rw [pcl_decompress_run _ _ _ (by omega)]
        rw [ih _ (by simp at hrest hl ⊢; omega)]
        have h257 : 257 - (257 - (pcl_runScan 2 (b :: rest)).1) =
            (pcl_runScan 2 (b :: rest)).1 := by omega
        rw [h257]
        -- from the scan characterisation, the replicate block restores the run
        have hk : (pcl_runScan 2 (b :: rest)).1 - 2 + 1 + 1 = (pcl_runScan 2 (b :: rest)).1 := by
          omega
        have hbyte : (pcl_runScan 2 (b :: rest)).2.1 = b := by
          have := h3
          rw [show (pcl_runScan 2 (b :: rest)).1 - 2 + 1 =
            ((pcl_runScan 2 (b :: rest)).1 - 2) + 1 from rfl, List.replicate_succ,
            List.cons_append] at this
          exact (List.cons.injEq _ _ _ _).mp this |>.1
        calc List.replicate (pcl_runScan 2 (b :: rest)).1 (pcl_runScan 2 (b :: rest)).2.1 ++
              (pcl_runScan 2 (b :: rest)).2.2
            = (pcl_runScan 2 (b :: rest)).2.1 ::
              (List.replicate ((pcl_runScan 2 (b :: rest)).1 - 2 + 1)
                (pcl_runScan 2 (b :: rest)).2.1 ++ (pcl_runScan 2 (b :: rest)).2.2) := by
              rw [← List.cons_append, ← List.replicate_succ, hk]
          _ = a :: b :: rest := by rw [h3, hbyte, hab]
      · rw [if_neg hab]
        obtain ⟨h1, h2, h3, h4⟩ := pcl_litScan_spec (b :: rest) 1 [a]
        have hn127 : (pcl_litScan 1 [a] (b :: rest)).1 ≤ 127 := by omega
        have hrest := pcl_litScan_rest_length (b :: rest) 1 [a]
        rw [pcl_decompress_lit _ _ (by omega)]
        have hlits : (pcl_litScan 1 [a] (b :: rest)).2.1.length =
            (pcl_litScan 1 [a] (b :: rest)).1 := by simp at h4; omega
        have htake : (pcl_litScan 1 [a] (b :: rest)).1 - 1 + 1 =
            (pcl_litScan 1 [a] (b :: rest)).2.1.length := by omega
        rw [htake, List.take_left, List.drop_left]
        rw [ih _ (by simp at hrest hl ⊢; omega)]
        simpa using h3

/-- Claim C1: for every packed scanline (in particular every output of the
PCL dither/pack step), decoding the compressed payload of `pcl_write_line`
by the rule of the claim — `(257 - n, b)` is `n` repeats of `b` for
`n ∈ [2,127]`, a header `n - 1` followed by `n` bytes is those `n` literal
bytes for `n ∈ [1,127]`, `(0, b)` is the single byte `b` — reproduces the
packed scanline byte-for-byte, for every input length (including 0, 1,
127, 128, 254 and 255 bytes). -/
theorem claim_C1_rle_roundtrip (packed : List Nat) :
    pcl_decompress (pcl_compress packed) = packed :=
  pcl_rle_roundtrip_aux packed.length packed le_rfl

/-- MSB-first bit packing shared by `pcl_write_line` and
`raster_write_line`: mirrors the loop body
`if (*line ≤/> dither) byte |= bit; if (bit == 1) { *outptr++ = byte; byte = 0; bit = 128; } else bit >>= 1;`
followed by the trailing `if (bit != 128) *outptr++ = byte;`.
The dither decisions are taken as a list of booleans. -/
def packLoop (bit byte : Nat) : List Bool → List Nat
  | [] => if bit ≠ 128 then [byte] else []
  | d :: rest =>
      let byte2 := if d then byte ||| bit else byte
      if bit = 1 then byte2 :: packLoop 128 0 rest
      else packLoop (bit / 2) byte2 rest

/-- Dither decisions of the `*line <= ditherline[x & 63]` loops
(`pcl_write_line` always, `raster_write_line` for non-`CUPS_CSPACE_SW`
color spaces); `x` is the current column. -/
def ditherRowLE (thr : Nat → Nat) : Nat → List Nat → List Bool
  | _, [] => []
  | x, s :: rest => decide (s ≤ thr (x % 64)) :: ditherRowLE thr (x + 1) rest

/-- Dither decisions of the `*line > ditherline[x & 63]` loop
(`raster_write_line` for the inverted `CUPS_CSPACE_SW` color space). -/
def ditherRowGT (thr : Nat → Nat) : Nat → List Nat → List Bool
  | _, [] => []
  | x, s :: rest => decide (thr (x % 64) < s) :: ditherRowGT thr (x + 1) rest

/-- The dither-and-pack step of `pcl_write_line` (lines 1164-1183):
`y &= 63; ditherline = ras->dither[y];` and the packing loop over
`x ∈ [left, right)`, where `line` holds the samples of those columns. -/
def pcl_pack (dither : Nat → Nat → Nat) (y left : Nat) (line : List Nat) : List Nat :=
  packLoop 128 0 (ditherRowLE (dither (y % 64)) left line)

/-- `2 ^ k = 128` exactly for `k = 7` (used to resolve the flush test of
the packer). -/
theorem two_pow_eq_128_iff (k : Nat) : 2 ^ k = 128 ↔ k = 7 := by
  constructor
  · intro h
    by_contra hk
    rcases Nat.lt_or_ge k 7 with h7 | h7
    · have : 2 ^ k < 2 ^ 7 := Nat.pow_lt_pow_right (by omega) h7
      omega
    · have h8 : 8 ≤ k := by omega
      have : 2 ^ 8 ≤ 2 ^ k := Nat.pow_le_pow_right (by omega) h8
      omega
  · intro h; subst h; rfl

/-- Length of the packed output: starting with `bit = 2 ^ k` (`k ≤ 7`),
packing `m` decisions emits `(m + 14 - k) / 8` bytes; with the initial
`bit = 128` this is `ceil(m / 8)`. -/
theorem packLoop_length (bs : List Bool) : ∀ (k byte : Nat), k ≤ 7 →
    (packLoop (2 ^ k) byte bs).length = (bs.length + 14 - k) / 8 := by
  induction bs with
  | nil =>
    intro k byte hk
    by_cases h7 : k = 7
    · subst h7
      simp [packLoop]
    · have : (2 : Nat) ^ k ≠ 128 := fun h => h7 ((two_pow_eq_128_iff k).mp h)
      rw [packLoop, if_pos this]
      have : 14 - k ∈ Finset.Icc 7 14 := by simp; omega
      simp only [List.length_singleton, List.length_nil]
      omega
  | cons d rest ih =>
    intro k byte hk
    cases k with
    | zero =>
      have hstep : packLoop (2 ^ 0) byte (d :: rest) =
          (if d then byte ||| 1 else byte) :: packLoop 128 0 rest := by
        rw [packLoop]; norm_num
      rw [hstep]
      have h7 := ih 7 0 le_rfl
      rw [show (2 : Nat) ^ 7 = 128 from rfl] at h7
      simp only [List.length_cons, h7]
      omega
    | succ j =>
      rw [packLoop]
      have hne : (2 : Nat) ^ (j + 1) ≠ 1 := by
        have : (2 : Nat) ^ 1 ≤ 2 ^ (j + 1) := Nat.pow_le_pow_right (by omega) (by omega)
        simp at this; omega
      rw [if_neg hne]
      have hdiv : 2 ^ (j + 1) / 2 = 2 ^ j := by
        rw [pow_succ, Nat.mul_div_cancel _ (by omega)]
      rw [hdiv, ih j _ (by omega)]
      simp only [List.length_cons]
      omega

/-- The dither decision lists have the length of the sample list. -/
theorem ditherRowLE_length (thr : Nat → Nat) (line : List Nat) : ∀ x : Nat,
    (ditherRowLE thr x line).length = line.length := by
  induction line with
  | nil => intro x; rfl
  | cons s rest ih => intro x; simp [ditherRowLE, ih]

/-- The dither decision lists have the length of the sample list. -/
theorem ditherRowGT_length (thr : Nat → Nat) (line : List Nat) : ∀ x : Nat,
    (ditherRowGT thr x line).length = line.length := by
  induction line with
  | nil => intro x; rfl
  | cons s rest ih => intro x; simp [ditherRowGT, ih]

/-- The packed scanline of `pcl_write_line` occupies
`ceil((right - left) / 8)` bytes — the `out_length = (right - left + 7) / 8`
of `pcl_start_page`. -/
theorem pcl_pack_length (dither : Nat → Nat → Nat) (y left : Nat) (line : List Nat) :
    (pcl_pack dither y left line).length = (line.length + 7) / 8 := by
  unfold pcl_pack
  rw [show (128 : Nat) = 2 ^ 7 from rfl, packLoop_length _ 7 0 le_rfl,
    ditherRowLE_length]
  omega

/-- The compressed payload is at most twice the packed input: each emitted
chunk covers at least half of the bytes it consumes. -/
theorem pcl_compress_loop_length : ∀ (fuel : Nat) (l : List Nat), l.length ≤ fuel →
    (pcl_compress_loop fuel l).length ≤ 2 * l.length := by
  intro fuel
  induction fuel with
  | zero => intro l h; simp [pcl_compress_loop]
  | succ n ih =>
    intro l hl
    match l with
    | [] => simp [pcl_compress_loop]
    | [a] => simp [pcl_compress_loop]
    | a :: b :: rest =>
      simp only [pcl_compress_loop]
      by_cases hab : a = b
      · rw [if_pos hab]
        obtain ⟨h1, h2, h3⟩ := pcl_runScan_spec (b :: rest) 2 (by simp)
        have hlenr := congrArg List.length h3
        simp at hlenr
        have hlen := pcl_runScan_rest_length (b :: rest) 2 (by simp)
        simp at hlen hl
        have := ih (pcl_runScan 2 (b :: rest)).2.2 (by omega)
        simp only [List.length_cons]
        omega
      · rw [if_neg hab]
        obtain ⟨h1, h2, h3, h4⟩ := pcl_litScan_spec (b :: rest) 1 [a]
        have hlenr := congrArg List.length h3
        simp at hlenr h4
        have hlen := pcl_litScan_rest_length (b :: rest) 1 [a]
        simp at hlen hl
        have := ih (pcl_litScan 1 [a] (b :: rest)).2.2 (by omega)
        simp only [List.length_cons, List.length_append]
        omega

/-- Claim C6: for every dithered row packed into `n = ceil((right-left)/8)`
bytes, the compressed payload written into `comp_buffer` is at most
`2 * n + 2` bytes, so the compressor never writes past the compression
buffer of size `2 * out_length + 2` allocated in `pcl_start_page`. -/
theorem claim_C6_comp_buffer_bound (dither : Nat → Nat → Nat) (y left : Nat)
    (line : List Nat) :
    (pcl_compress (pcl_pack dither y left line)).length ≤
      2 * ((line.length + 7) / 8) + 2 := by
  have h1 : (pcl_compress (pcl_pack dither y left line)).length ≤
      2 * (pcl_pack dither y left line).length :=
    pcl_compress_loop_length _ _ le_rfl
  rw [pcl_pack_length] at h1
  omega

/-- Output atoms of the PCL backend, abstracting the escape sequences
written through `pcl_printf` and the write callback: `skip n` is the
`"\033*b%dY"` blank-line skip, `transfer payload` is the
`"\033*b%dW"` sequence followed by the compressed payload,
`endGraphics` is the `"\033*r0B"` of `pcl_end_page` and `formfeed`
the `"\014"`. -/
inductive PclSeq where
  | skip (lines : Nat)
  | transfer (payload : List Nat)
  | endGraphics
  | formfeed
deriving DecidableEq

/-- The pairwise scan of `memcmp(line, line + 1, ras->right - ras->left - 1)`:
all adjacent bytes are equal, i.e. the whole row equals its first byte. -/
def adjacentEq : List Nat → Bool
  | a :: b :: rest => a == b && adjacentEq (b :: rest)
  | _ => true

/-- The blank-line test of `pcl_write_line` (line 1150):
`line[0] == 255 && !memcmp(line, line + 1, ras->right - ras->left - 1)`.
The row always has at least one byte in the program (`left < right`). -/
def pcl_blank_check : List Nat → Bool
  | [] => false
  | b :: rest => b == 255 && adjacentEq (b :: rest)

/-- `pcl_write_line` (lines 1131-1265): on a blank row, bump `out_blanks`
and emit nothing; otherwise dither/pack the row, compress it, first flush a
pending `skip` if `out_blanks > 0`, then emit the `transfer` with the
compressed payload. `line` holds the samples of columns `[left, right)`;
the result is the new `out_blanks` and the emitted output. -/
def pcl_write_line (dither : Nat → Nat → Nat) (left y : Nat) (line : List Nat)
    (out_blanks : Nat) : Nat × List PclSeq :=
  if pcl_blank_check line then (out_blanks + 1, [])
  else
    (0, (if 0 < out_blanks then [PclSeq.skip out_blanks] else []) ++
      [PclSeq.transfer (pcl_compress (pcl_pack dither y left line))])

/-- The per-page scanline loop of `xform_document`
(`for (y = ras.top; y < ras.bottom; y ++) ... (*(ras.write_line))(...)`)
restricted to the PCL backend: rows are handed to `pcl_write_line` in
order, threading the `out_blanks` counter. -/
def pcl_write_lines (dither : Nat → Nat → Nat) (left : Nat) :
    Nat → List (List Nat) → Nat → List PclSeq
  | _, [], _ => []
  | y, row :: rows, blanks =>
      (pcl_write_line dither left y row blanks).2 ++
        pcl_write_lines dither left (y + 1) rows (pcl_write_line dither left y row blanks).1

/-- `pcl_end_page` (lines 907-932): end graphics, then a formfeed unless
this is the front side of a duplex sheet; the pending `out_blanks` counter
is NOT flushed. -/
def pcl_end_page_out (duplex : Bool) (page : Nat) : List PclSeq :=
  PclSeq.endGraphics :: (if duplex ∧ page % 2 = 1 then [] else [PclSeq.formfeed])

/-- Everything the PCL backend emits for one page after `pcl_start_page`
(which resets `out_blanks` to 0): the scanline loop followed by
`pcl_end_page`. -/
def pcl_page_out (dither : Nat → Nat → Nat) (left top : Nat) (duplex : Bool)
    (page : Nat) (rows : List (List Nat)) : List PclSeq :=
  pcl_write_lines dither left top rows 0 ++ pcl_end_page_out duplex page

/-- Number of `skip` escape sequences in a PCL output fragment. -/
def countSkips (out : List PclSeq) : Nat :=
  out.countP fun s => match s with | PclSeq.skip _ => true | _ => false

/-- Number of `transfer` escape sequences in a PCL output fragment. -/
def countTransfers (out : List PclSeq) : Nat :=
  out.countP fun s => match s with | PclSeq.transfer _ => true | _ => false

/-- Counterexample to claim C2 as stated: the row `[0, 0]` has all bytes
equal to its first byte, yet `pcl_write_line` does not take the blank-line
fast path (the counter stays 0 and a transfer is emitted), because the
test compares `line[0]` against the constant 255. -/
theorem claim_C2_counterexample :
    pcl_write_line (fun _ _ => 127) 0 0 [0, 0] 0 ≠ (0 + 1, []) := by decide

/-- Claim C2 (amended): the fast path requires the first byte to be 255.
For every nonempty row all of whose bytes are 255, `pcl_write_line`
increments `out_blanks` and returns without emitting anything. -/
theorem claim_C2_blank_fast_path (dither : Nat → Nat → Nat) (left y : Nat)
    (line : List Nat) (out_blanks : Nat) (hne : line ≠ [])
    (hall : ∀ b ∈ line, b = 255) :
    pcl_write_line dither left y line out_blanks = (out_blanks + 1, []) := by
  have hblank : pcl_blank_check line = true := by
    match line, hne with
    | b :: rest, _ =>
      have hb : b = 255 := hall b (by simp)
      rw [pcl_blank_check]
      have hadj : ∀ (t : List Nat) (c : Nat), (∀ x ∈ c :: t, x = 255) →
          adjacentEq (c :: t) = true := by
        intro t
        induction t with
        | nil => intro c _; rfl
        | cons d t2 ih =>
          intro c hc
          rw [adjacentEq]
          have hcd : c = d := by
            rw [hc c (by simp), hc d (by simp)]
          simp only [hcd, beq_self_eq_true, Bool.true_and]
          exact ih d fun x hx => hc x (by simp at hx ⊢; tauto)
      rw [hadj rest b hall, hb]
      rfl
  rw [pcl_write_line, if_pos hblank]

/-- Satisfiability witness for claim C2's amended statement. -/
theorem claim_C2_blank_fast_path_witness :
    ([255, 255] : List Nat) ≠ [] ∧ (∀ b ∈ ([255, 255] : List Nat), b = 255) ∧
      pcl_write_line (fun _ _ => 127) 0 0 [255, 255] 3 = (4, []) :=
  ⟨by decide, by decide,
    claim_C2_blank_fast_path (fun _ _ => 127) 0 0 [255, 255] 3 (by decide) (by decide)⟩

/-- On an all-blank page every call takes the fast path, so the scanline
loop emits nothing at all (the accumulated `out_blanks` is never flushed). -/
theorem pcl_write_lines_all_blank (dither : Nat → Nat → Nat) (left : Nat)
    (rows : List (List Nat)) : ∀ (y blanks : Nat),
    (∀ row ∈ rows, pcl_blank_check row = true) →
    pcl_write_lines dither left y rows blanks = [] := by
  induction rows with
  | nil => intro y blanks _; rfl
  | cons row rest ih =>
    intro y blanks hall
    have hrow : pcl_blank_check row = true := hall row (by simp)
    rw [pcl_write_lines]
    rw [show pcl_write_line dither left y row blanks = (blanks + 1, []) from by
      rw [pcl_write_line, if_pos hrow]]
    simpa using ih (y + 1) (blanks + 1) fun r hr => hall r (by simp [hr])

/-- On a page with no blank rows the `out_blanks` counter stays 0, so no
`skip` sequence is ever emitted. -/
theorem pcl_write_lines_no_blank (dither : Nat → Nat → Nat) (left : Nat)
    (rows : List (List Nat)) : ∀ (y : Nat),
    (∀ row ∈ rows, pcl_blank_check row = false) →
    countSkips (pcl_write_lines dither left y rows 0) = 0 := by
  induction rows with
  | nil => intro y _; rfl
  | cons row rest ih =>
    intro y hall
    have hrow : pcl_blank_check row = false := hall row (by simp)
    rw [pcl_write_lines]
    rw [show pcl_write_line dither left y row 0 =
        (0, [PclSeq.transfer (pcl_compress (pcl_pack dither y left row))]) from by
      rw [pcl_write_line, if_neg (by simp [hrow])]; rfl]
    rw [countSkips, List.countP_append]
    have := ih (y + 1) fun r hr => hall r (by simp [hr])
    rw [countSkips] at this
    simp [this]

/-- Counterexample to claim C3 as stated: a page whose two rows are both
entirely 255 produces ZERO `skip` sequences, not exactly one —
`pcl_end_page` never flushes `out_blanks`, and no non-blank row arrives to
flush it either. -/
theorem claim_C3_counterexample :
    countSkips (pcl_page_out (fun _ _ => 127) 0 0 false 1 [[255, 255], [255, 255]]) ≠ 1 := by
  decide

/-- Claim C3 (amended): a PCL page all of whose rows are blank (every byte
255) emits zero `skip` and zero `transfer` sequences — the blank-line
counter is accumulated but never flushed; a page with no blank rows emits
zero `skip` sequences. -/
theorem claim_C3_blank_page_sequences (dither : Nat → Nat → Nat)
    (left top : Nat) (duplex : Bool) (page : Nat) (rows : List (List Nat)) :
    ((∀ row ∈ rows, row ≠ [] ∧ ∀ b ∈ row, b = 255) →
      countSkips (pcl_page_out dither left top duplex page rows) = 0 ∧
      countTransfers (pcl_page_out dither left top duplex page rows) = 0) ∧
    ((∀ row ∈ rows, pcl_blank_check row = false) →
      countSkips (pcl_page_out dither left top duplex page rows) = 0) := by
  have hend : countSkips (pcl_end_page_out duplex page) = 0 ∧
      countTransfers (pcl_end_page_out duplex page) = 0 := by
    rw [pcl_end_page_out]
    by_cases h : duplex ∧ page % 2 = 1
    · rw [if_pos h]; exact ⟨rfl, rfl⟩
    · rw [if_neg h]; exact ⟨rfl, rfl⟩
  constructor
  · intro hall
    have hblank : ∀ row ∈ rows, pcl_blank_check row = true := by
      intro row hr
      obtain ⟨hne, h255⟩ := hall row hr
      match row, hne with
      | b :: rest, _ =>
        have hb : b = 255 := h255 b (by simp)
        rw [pcl_blank_check]
        have hadj : ∀ (t : List Nat) (c : Nat), (∀ x ∈ c :: t, x = 255) →
            adjacentEq (c :: t) = true := by
          intro t
          induction t with
          | nil => intro c _; rfl
          | cons d t2 ih =>
            intro c hc
            rw [adjacentEq]
            have hcd : c = d := by rw [hc c (by simp), hc d (by simp)]
            simp only [hcd, beq_self_eq_true, Bool.true_and]
            exact ih d fun x hx => hc x (by simp at hx ⊢; tauto)
        rw [hadj rest b h255, hb]
        rfl
    rw [pcl_page_out, pcl_write_lines_all_blank dither left rows top 0 hblank,
      List.nil_append]
    exact hend
  · intro hall
    rw [pcl_page_out, countSkips, List.countP_append]
    have h1 := pcl_write_lines_no_blank dither left rows top hall
    rw [countSkips] at h1
    have h2 := hend.1
    rw [countSkips] at h2
    omega

/-- Satisfiability witness for claim C3's amended statement: a two-row
all-blank page and a two-row page with no blank rows. -/
theorem claim_C3_blank_page_sequences_witness :
    (countSkips (pcl_page_out (fun _ _ => 127) 0 0 false 1 [[255, 255], [255, 255]]) = 0 ∧
      countTransfers (pcl_page_out (fun _ _ => 127) 0 0 false 1 [[255, 255], [255, 255]]) = 0) ∧
    countSkips (pcl_page_out (fun _ _ => 127) 0 0 false 1 [[0, 0], [9, 1]]) = 0 :=
  ⟨(claim_C3_blank_page_sequences (fun _ _ => 127) 0 0 false 1
      [[255, 255], [255, 255]]).1 (by decide),
    (claim_C3_blank_page_sequences (fun _ _ => 127) 0 0 false 1
      [[0, 0], [9, 1]]).2 (by decide)⟩

/-- `CUPS_CSPACE_SW` tag (value 18 in `cups/raster.h`): luminance
grayscale, "white is high". -/
def CUPS_CSPACE_SW : Nat := 18

/-- The dither decisions of `raster_write_line` (lines 1392-1431): for
`CUPS_CSPACE_SW` the `*line > ditherline[x & 63]` loop, for every other
color space the `*line <= ditherline[x & 63]` loop. -/
def raster_dither_bits (cupsColorSpace : Nat) (dither : Nat → Nat → Nat)
    (y left : Nat) (line : List Nat) : List Bool :=
  if cupsColorSpace = CUPS_CSPACE_SW then ditherRowGT (dither (y % 64)) left line
  else ditherRowLE (dither (y % 64)) left line

/-- `raster_write_line` (lines 1369-1437): at 1 bit per pixel the row is
dithered and packed (then handed to `cupsRasterWritePixels`); otherwise
the row is forwarded unchanged. The bytes written to the raster sink are
returned. -/
def raster_write_line (cupsBitsPerPixel cupsColorSpace : Nat)
    (dither : Nat → Nat → Nat) (y left : Nat) (line : List Nat) : List Nat :=
  if cupsBitsPerPixel = 1 then
    packLoop 128 0 (raster_dither_bits cupsColorSpace dither y left line)
  else line

/-- Pointwise value of the `sample ≤ threshold` dither scan. -/
theorem ditherRowLE_get? (thr : Nat → Nat) (line : List Nat) : ∀ (x i s : Nat),
    line.get? i = some s →
    (ditherRowLE thr x line).get? i = some (decide (s ≤ thr ((x + i) % 64))) := by
  induction line with
  | nil => intro x i s h; simp at h
  | cons a rest ih =>
    intro x i s h
    cases i with
    | zero =>
      simp at h
      subst h
      simp [ditherRowLE]
    | succ j =>
      simp only [ditherRowLE, List.get?_cons_succ] at h ⊢
      rw [ih (x + 1) j s h]
      have : x + 1 + j = x + (j + 1) := by omega
      rw [this]

/-- Pointwise value of the `sample > threshold` dither scan. -/
theorem ditherRowGT_get? (thr : Nat → Nat) (line : List Nat) : ∀ (x i s : Nat),
    line.get? i = some s →
    (ditherRowGT thr x line).get? i = some (decide (thr ((x + i) % 64) < s)) := by
  induction line with
  | nil => intro x i s h; simp at h
  | cons a rest ih =>
    intro x i s h
    cases i with
    | zero =>
      simp at h
      subst h
      simp [ditherRowGT]
    | succ j =>
      simp only [ditherRowGT, List.get?_cons_succ] at h ⊢
      rw [ih (x + 1) j s h]
      have : x + 1 + j = x + (j + 1) := by omega
      rw [this]

/-- Counterexample to claim C4 as stated: the PCL backend's dither step has
no color-space branch. For a sample of 200 against a threshold of 127 in a
`CUPS_CSPACE_SW` job the claim predicts a set bit (`200 > 127`), i.e. the
packed byte `[128]`, but `pcl_write_line` always uses `sample ≤ threshold`
and packs `[0]`. -/
theorem claim_C4_counterexample :
    pcl_pack (fun _ _ => 127) 0 0 [200] ≠ [128] ∧
      pcl_pack (fun _ _ => 127) 0 0 [200] = [0] ∧ 127 < 200 := by decide

/-- Claim C4 (amended): in the 1-bit dither step, the RASTER backend sets
the output bit exactly when `sample > threshold` for `CUPS_CSPACE_SW` and
exactly when `sample ≤ threshold` for every other color space, with
threshold `DitherMatrix[y mod 64][(left + i) mod 64]`; the PCL backend's
`pcl_write_line` sets the bit exactly when `sample ≤ threshold` for every
color space (it has no polarity branch). -/
theorem claim_C4_dither_polarity (cupsColorSpace : Nat)
    (dither : Nat → Nat → Nat) (y left : Nat) (line : List Nat) (i s : Nat)
    (h : line.get? i = some s) :
    (raster_dither_bits cupsColorSpace dither y left line).get? i =
      some (if cupsColorSpace = CUPS_CSPACE_SW then
              decide (dither (y % 64) ((left + i) % 64) < s)
            else decide (s ≤ dither (y % 64) ((left + i) % 64))) ∧
    (ditherRowLE (dither (y % 64)) left line).get? i =
      some (decide (s ≤ dither (y % 64) ((left + i) % 64))) := by
  constructor
  · rw [raster_dither_bits]
    by_cases hsw : cupsColorSpace = CUPS_CSPACE_SW
    · rw [if_pos hsw, if_pos hsw, ditherRowGT_get? _ _ left i s h]
    · rw [if_neg hsw, if_neg hsw, ditherRowLE_get? _ _ left i s h]
  · exact ditherRowLE_get? _ _ left i s h

/-- Satisfiability witness for claim C4's amended statement, at sample 200,
threshold 127, in the inverted `CUPS_CSPACE_SW` space. -/
theorem claim_C4_dither_polarity_witness :
    (raster_dither_bits CUPS_CSPACE_SW (fun _ _ => 127) 0 0 [200]).get? 0 =
      some (if CUPS_CSPACE_SW = CUPS_CSPACE_SW then decide ((127 : Nat) < 200)
            else decide ((200 : Nat) ≤ 127)) ∧
    (ditherRowLE (fun _ => 127) 0 [200]).get? 0 = some (decide ((200 : Nat) ≤ 127)) := by
  have h := claim_C4_dither_polarity CUPS_CSPACE_SW (fun _ _ => 127) 0 0 [200] 0 200
    (by decide)
  exact h

/-- `#define XFORM_MAX_RASTER 16777216` — default memory budget for the
band buffer. -/
def XFORM_MAX_RASTER : Nat := 16777216

/-- The band-size computation of `xform_document` (line 1705):
`band_size = ras.header.cupsWidth * ras.band_bpp;` — a product of two
32-bit `unsigned` values, wrapping modulo `2 ^ 32` before widening to
`size_t`. -/
def xform_band_size (cupsWidth band_bpp : Nat) : Nat :=
  cupsWidth * band_bpp % 2 ^ 32

/-- The band-height computation of `xform_document` (lines 1706-1709):
`if ((ras.band_height = (unsigned)(max_raster / band_size)) < 1) ras.band_height = 1;`
`else if (ras.band_height > ras.header.cupsHeight) ras.band_height = ras.header.cupsHeight;`.
`max_raster` is a `size_t` (the default `XFORM_MAX_RASTER` or any positive
`strtol` value of the `IPPTRANSFORM_MAX_RASTER` override), so the quotient
is computed in 64 bits and then truncated modulo `2 ^ 32` by the
`(unsigned)` cast before the `< 1` test. -/
def xform_band_height (max_raster band_size cupsHeight : Nat) : Nat :=
  if max_raster / band_size % 2 ^ 32 < 1 then 1
  else if cupsHeight < max_raster / band_size % 2 ^ 32 then cupsHeight
  else max_raster / band_size % 2 ^ 32

/-- Counterexample to claim C5 as stated: with the positive
`IPPTRANSFORM_MAX_RASTER` override `2 ^ 32 = 4294967296` and a one-byte
scanline (width 1, one byte per pixel), the `(unsigned)` cast truncates
the 64-bit quotient `2 ^ 32` to `0`, so the code clamps the band height
to 1, while the claim's untruncated formula
`max 1 (min page_height (budget / bytes_per_scanline))` yields the full
page height 5. -/
theorem claim_C5_counterexample :
    xform_band_height 4294967296 (xform_band_size 1 1) 5 = 1 ∧
    max 1 (min 5 (4294967296 / (1 * 1))) = 5 ∧
    xform_band_height 4294967296 (xform_band_size 1 1) 5 ≠
      max 1 (min 5 (4294967296 / (1 * 1))) := by decide

/-- Claim C5 (amended): for positive page width, page height, bytes per
pixel and memory budget (the default `XFORM_MAX_RASTER = 16777216` or a
positive override), the band height equals
`max 1 (min page_height q)` where `q` is the quotient
`budget / bytes_per_scanline` truncated to 32 bits and
`bytes_per_scanline` the wrapping 32-bit product `cupsWidth * band_bpp`;
whenever neither the product nor the quotient overflows 32 bits — in
particular always under the default budget — this is the original
`max 1 (min page_height (budget / (cupsWidth * band_bpp)))`; and the band
height is at least 1 in every case, a single-scanline band being valid. -/
theorem claim_C5_band_height (w h bpp budget : Nat)
    (hw : 0 < w) (hh : 0 < h) (hbpp : 0 < bpp) (hbudget : 0 < budget) :
    xform_band_height budget (xform_band_size w bpp) h =
      max 1 (min h (budget / (w * bpp % 2 ^ 32) % 2 ^ 32)) ∧
    (w * bpp < 2 ^ 32 → budget / (w * bpp) < 2 ^ 32 →
      xform_band_height budget (xform_band_size w bpp) h =
        max 1 (min h (budget / (w * bpp)))) ∧
    1 ≤ xform_band_height budget (xform_band_size w bpp) h ∧
    XFORM_MAX_RASTER = 16777216 := by
  have hgen : ∀ v : Nat, (if v < 1 then 1 else if h < v then h else v) =
      max 1 (min h v) := by
    intro v
    split_ifs <;> omega
  have hcore : xform_band_height budget (xform_band_size w bpp) h =
      max 1 (min h (budget / (w * bpp % 2 ^ 32) % 2 ^ 32)) :=
    hgen (budget / (w * bpp % 2 ^ 32) % 2 ^ 32)
  refine ⟨hcore, ?_, ?_, rfl⟩
  · intro hprod hquot
    rw [hcore, Nat.mod_eq_of_lt hprod, Nat.mod_eq_of_lt hquot]
  · rw [hcore]
    exact Nat.le_max_left _ _

/-- Satisfiability witness for claim C5's amended statement: a
2550-pixel-wide grayscale page of height 3300 under the default budget
(no 32-bit overflow anywhere, so the original formula applies), and the
band height is at least 1. -/
theorem claim_C5_band_height_witness :
    xform_band_height XFORM_MAX_RASTER (xform_band_size 2550 1) 3300 =
      max 1 (min 3300 (XFORM_MAX_RASTER / (2550 * 1))) ∧
    1 ≤ xform_band_height XFORM_MAX_RASTER (xform_band_size 2550 1) 3300 :=
  ⟨(claim_C5_band_height 2550 3300 1 XFORM_MAX_RASTER (by decide) (by decide)
        (by decide) (by decide)).2.1 (by decide) (by decide),
    (claim_C5_band_height 2550 3300 1 XFORM_MAX_RASTER (by decide) (by decide)
        (by decide) (by decide)).2.2.1⟩

/-- A 2D affine transform as produced by `CGAffineTransformMake`; applying
it maps `(x, y)` to `(a*x + c*y + tx, b*x + d*y + ty)`. The page sizes fed
into the back-side transforms are exact integers (PWG media points). -/
structure CGAffineTransform where
  a : Int
  b : Int
  c : Int
  d : Int
  tx : Int
  ty : Int
deriving DecidableEq

/-- `CGAffineTransformMake`. -/
def CGAffineTransformMake (a b c d tx ty : Int) : CGAffineTransform :=
  ⟨a, b, c, d, tx, ty⟩

/-- Application of an affine transform to a point. -/
def applyAffine (t : CGAffineTransform) (x y : Int) : Int × Int :=
  (t.a * x + t.c * y + t.tx, t.b * x + t.d * y + t.ty)

/-- The back-side transform selection of `xform_document` (lines 1766-1787):
active only for multi-page duplex jobs with a `sheet_back` value; `W`, `H`
are `cupsPageSize[0]`, `cupsPageSize[1]`. -/
def xform_back_transform (pages : Nat) (sheet_back : Option String)
    (duplex tumble : Bool) (W H : Int) : CGAffineTransform :=
  if 1 < pages ∧ sheet_back.isSome ∧ duplex then
    match sheet_back with
    | some sb =>
        if sb = "flipped" then
          if tumble then CGAffineTransformMake (-1) 0 0 1 W 0
          else CGAffineTransformMake 1 0 0 (-1) 0 H
        else if sb = "manual-tumble" ∧ tumble then
          CGAffineTransformMake (-1) 0 0 (-1) W H
        else if sb = "rotated" ∧ ¬tumble then
          CGAffineTransformMake (-1) 0 0 (-1) W H
        else CGAffineTransformMake 1 0 0 1 0 0
    | none => CGAffineTransformMake 1 0 0 1 0 0
  else CGAffineTransformMake 1 0 0 1 0 0

/-- Claim C7: for a duplex job with more than one page, `sheet_back =
"rotated"` and `Tumble = false`, the back-side transform has coefficients
`(-1, 0, 0, -1, W, H)`, which maps `(x, y)` to `(W - x, H - y)` — a 180°
rotation about the page center. -/
theorem claim_C7_rotated_back_transform (pages : Nat) (W H : Int)
    (hpages : 1 < pages) :
    xform_back_transform pages (some "rotated") true false W H =
      CGAffineTransformMake (-1) 0 0 (-1) W H ∧
    ∀ x y : Int,
      applyAffine (xform_back_transform pages (some "rotated") true false W H) x y =
        (W - x, H - y) := by
  have hsel : xform_back_transform pages (some "rotated") true false W H =
      CGAffineTransformMake (-1) 0 0 (-1) W H := by
    rw [xform_back_transform, if_pos ⟨hpages, rfl, rfl⟩]
    norm_num
    exact fun h => absurd h (by decide)
  refine ⟨hsel, fun x y => ?_⟩
  rw [hsel]
  simp only [applyAffine, CGAffineTransformMake, Prod.mk.injEq]
  constructor <;> ring

/-- Satisfiability witness for claim C7, on a two-page US Letter job
(612 × 792 points), checking the corner `(0, 0)` maps to `(W, H)`. -/
theorem claim_C7_rotated_back_transform_witness :
    xform_back_transform 2 (some "rotated") true false 612 792 =
      CGAffineTransformMake (-1) 0 0 (-1) 612 792 ∧
    applyAffine (xform_back_transform 2 (some "rotated") true false 612 792) 0 0 =
      (612, 792) :=
  ⟨(claim_C7_rotated_back_transform 2 612 792 (by decide)).1,
    (claim_C7_rotated_back_transform 2 612 792 (by decide)).2 0 0⟩

/-- IPP `print-quality` enum values used by `xform_setup`:
`IPP_QUALITY_DRAFT = 3`, `IPP_QUALITY_NORMAL = 4`, `IPP_QUALITY_HIGH = 5`. -/
def IPP_QUALITY_DRAFT : Int := 3

/-- IPP `print-quality` normal value. -/
def IPP_QUALITY_NORMAL : Int := 4

/-- IPP `print-quality` high value. -/
def IPP_QUALITY_HIGH : Int := 5

/-- The print-quality branch of the resolution selection in `xform_setup`
(the `switch (pq = atoi(print_quality))` at lines 2783-2804): draft, normal
and high quality look up index `0`, `count / 2` and `count - 1` of the
supported array (`cupsArrayIndex` returns null out of range, i.e. `none`);
any other value selects nothing. -/
def quality_resolution (supported : List String) (print_quality : Option Int) :
    Option String :=
  match print_quality with
  | some q =>
      if q = IPP_QUALITY_DRAFT then supported.get? 0
      else if q = IPP_QUALITY_NORMAL then supported.get? (supported.length / 2)
      else if q = IPP_QUALITY_HIGH then supported.get? (supported.length - 1)
      else none
  | none => none

/-- The resolution selection of `xform_setup` (lines 2772-2814). The
supported resolutions (the CUPS string array built from the
comma-separated `resolutions` argument, an external helper) are modelled
as the list of its entries; `printer_resolution` is the requested
`"printer-resolution"` option and `print_quality` the parsed
`"print-quality"` option when present.  Steps: a requested resolution not
found in the supported array is discarded (with a warning); otherwise the
quality lookup applies; if still unset, fall back to index `count / 2`;
`xform_setup` fails with an error when the result is still null. -/
def xform_select_resolution (supported : List String)
    (printer_resolution : Option String) (print_quality : Option Int) :
    Option String :=
  let pr1 : Option String :=
    match printer_resolution with
    | some r => if r ∈ supported then some r else none
    | none => none
  let pr2 : Option String :=
    match pr1 with
    | some r => some r
    | none => quality_resolution supported print_quality
  match pr2 with
  | some r => some r
  | none => supported.get? (supported.length / 2)

/-- Selection with no requested resolution reduces to the quality lookup
followed by the middle-element fallback. -/
theorem xform_select_resolution_none (supported : List String) (q : Option Int) :
    xform_select_resolution supported none q =
      match quality_resolution supported q with
      | some r => some r
      | none => supported.get? (supported.length / 2) := rfl

/-- A requested resolution that is not in the supported array is discarded. -/
theorem xform_select_resolution_discard (supported : List String) (req : String)
    (q : Option Int) (h : req ∉ supported) :
    xform_select_resolution supported (some req) q =
      xform_select_resolution supported none q := by
  simp only [xform_select_resolution]
  rw [if_neg h]

/-- The middle-element fallback is vacuous whenever the quality lookup at
index `i` can only miss on an empty array. -/
theorem fallback_match_get (supported : List String) (i : Nat)
    (hi : supported.length ≤ i → supported = []) :
    (match supported.get? i with
      | some r => some r
      | none => supported.get? (supported.length / 2)) = supported.get? i := by
  cases hs : supported.get? i with
  | some r => rfl
  | none =>
    have hemp := hi (List.get?_eq_none.mp hs)
    subst hemp
    rfl

/-- The middle-element fallback misses exactly on an empty array. -/
theorem get_middle_eq_none (supported : List String) :
    (supported.get? (supported.length / 2) = none) ↔ supported = [] := by
  rw [List.get?_eq_none]
  constructor
  · intro h
    cases supported with
    | nil => rfl
    | cons a t => simp at h; omega
  · intro h; subst h; simp

/-- Claim C8: a requested resolution not in the supported list is
discarded; with no usable explicit resolution, draft/normal/high quality
select the first, `count / 2`-th and last supported entry; if still
unresolved the `count / 2`-th entry is used; and the selection (hence
`xform_setup`) fails exactly when the supported list has no element. -/
theorem claim_C8_resolution_selection (supported : List String)
    (req : String) (q : Option Int) (hreq : req ∉ supported) :
    xform_select_resolution supported (some req) q =
      xform_select_resolution supported none q ∧
    xform_select_resolution supported none (some IPP_QUALITY_DRAFT) =
      supported.get? 0 ∧
    xform_select_resolution supported none (some IPP_QUALITY_NORMAL) =
      supported.get? (supported.length / 2) ∧
    xform_select_resolution supported none (some IPP_QUALITY_HIGH) =
      supported.get? (supported.length - 1) ∧
    xform_select_resolution supported none none =
      supported.get? (supported.length / 2) ∧
    (∀ q2 : Int, q2 ≠ IPP_QUALITY_DRAFT → q2 ≠ IPP_QUALITY_NORMAL →
      q2 ≠ IPP_QUALITY_HIGH →
      xform_select_resolution supported none (some q2) =
        supported.get? (supported.length / 2)) ∧
    (xform_select_resolution supported (some req) q = none ↔ supported = []) := by
  refine ⟨xform_select_resolution_discard supported req q hreq, ?_, ?_, ?_, ?_, ?_, ?_⟩
  · rw [xform_select_resolution_none,
      show quality_resolution supported (some IPP_QUALITY_DRAFT) = supported.get? 0 from by
        simp [quality_resolution]]
    exact fallback_match_get supported 0 fun h =>
      List.eq_nil_of_length_eq_zero (by omega)
  · rw [xform_select_resolution_none,
      show quality_resolution supported (some IPP_QUALITY_NORMAL) =
          supported.get? (supported.length / 2) from by
        simp [quality_resolution, IPP_QUALITY_NORMAL, IPP_QUALITY_DRAFT]]
    exact fallback_match_get supported (supported.length / 2) fun h =>
      List.eq_nil_of_length_eq_zero (by omega)
  · rw [xform_select_resolution_none,
      show quality_resolution supported (some IPP_QUALITY_HIGH) =
          supported.get? (supported.length - 1) from by
        simp [quality_resolution, IPP_QUALITY_HIGH, IPP_QUALITY_NORMAL,
          IPP_QUALITY_DRAFT]]
    exact fallback_match_get supported (supported.length - 1) fun h =>
      List.eq_nil_of_length_eq_zero (by omega)
  · rfl
  · intro q2 h3 h4 h5
    rw [xform_select_resolution_none,
      show quality_resolution supported (some q2) = none from by
        simp only [quality_resolution]
        rw [if_neg h3, if_neg h4, if_neg h5]]
  · rw [xform_select_resolution_discard supported req q hreq,
      xform_select_resolution_none]
    cases hq : quality_resolution supported q with
    | none => simpa using get_middle_eq_none supported
    | some r =>
      have hne : supported ≠ [] := by
        intro hemp
        subst hemp
        cases q with
        | none => simp [quality_resolution] at hq
        | some qv =>
          simp only [quality_resolution] at hq
          split_ifs at hq <;> simp at hq
      simp [hne]

/-- Satisfiability witness for claim C8, on the supported list
`["300dpi", "600dpi", "1200dpi"]` with the unsupported request `"150dpi"`
and high print quality. -/
theorem claim_C8_resolution_selection_witness :
    xform_select_resolution ["300dpi", "600dpi", "1200dpi"] (some "150dpi")
        (some IPP_QUALITY_HIGH) =
      xform_select_resolution ["300dpi", "600dpi", "1200dpi"] none
        (some IPP_QUALITY_HIGH) ∧
    xform_select_resolution ["300dpi", "600dpi", "1200dpi"] none
        (some IPP_QUALITY_HIGH) = some "1200dpi" := by
  have h := claim_C8_resolution_selection ["300dpi", "600dpi", "1200dpi"]
    "150dpi" (some IPP_QUALITY_HIGH) (by decide)
  exact ⟨h.1, by decide⟩

/-- Outcome of one `write(2)` call as seen by `write_fd`: a non-negative
byte count, or a failure with `errno` equal to `EINTR`, `EAGAIN`, or
anything else. -/
inductive WriteOutcome where
  | ok (n : Nat)
  | eintr
  | eagain
  | err
deriving DecidableEq

/-- The `while (bytes > 0)` loop of `write_fd` (lines 1489-1502), driven by
an oracle listing the successive outcomes of the external `write` calls:
`EINTR`/`EAGAIN` retry with the same remaining count, any other error
returns `-1` immediately, and a successful count is added to `total` and
subtracted from `bytes`. `none` models the loop still running when the
oracle is exhausted. -/
def write_fd_loop : List WriteOutcome → Nat → Nat → Option Int
  | _, 0, total => some (total : Int)
  | [], _ + 1, _ => none
  | o :: rest, b + 1, total =>
      match o with
      | WriteOutcome.eintr => write_fd_loop rest (b + 1) total
      | WriteOutcome.eagain => write_fd_loop rest (b + 1) total
      | WriteOutcome.err => some (-1)
      | WriteOutcome.ok n => write_fd_loop rest (b + 1 - n) (total + n)

/-- `write_fd`: the loop starting from `total = 0`. -/
def write_fd (oracle : List WriteOutcome) (bytes : Nat) : Option Int :=
  write_fd_loop oracle bytes 0

/-- POSIX contract of `write`: a successful call never reports more bytes
than were requested. The check is threaded through the oracle against the
remaining byte count. -/
def okBounded : List WriteOutcome → Nat → Bool
  | [], _ => true
  | WriteOutcome.ok n :: rest, b => decide (n ≤ b) && okBounded rest (b - n)
  | _ :: rest, b => okBounded rest b

/-- Any result of the loop is the full running total or `-1`. -/
theorem write_fd_loop_total (oracle : List WriteOutcome) : ∀ (b total : Nat) (t : Int),
    okBounded oracle b = true → write_fd_loop oracle b total = some t →
    t = (total : Int) + (b : Int) ∨ t = -1 := by
  induction oracle with
  | nil =>
    intro b total t _ hres
    match b, hres with
    | 0, hres =>
      left
      simp only [write_fd_loop, Option.some.injEq] at hres
      omega
  | cons o rest ih =>
    intro b total t hok hres
    match b, hres with
    | 0, hres =>
      left
      simp only [write_fd_loop, Option.some.injEq] at hres
      omega
    | b + 1, hres =>
      cases o with
      | eintr =>
        rw [show write_fd_loop (WriteOutcome.eintr :: rest) (b + 1) total =
          write_fd_loop rest (b + 1) total from rfl] at hres
        exact ih (b + 1) total t (by simpa [okBounded] using hok) hres
      | eagain =>
        rw [show write_fd_loop (WriteOutcome.eagain :: rest) (b + 1) total =
          write_fd_loop rest (b + 1) total from rfl] at hres
        exact ih (b + 1) total t (by simpa [okBounded] using hok) hres
      | err =>
        right
        simp only [write_fd_loop, Option.some.injEq] at hres
        exact hres.symm
      | ok n =>
        rw [show write_fd_loop (WriteOutcome.ok n :: rest) (b + 1) total =
          write_fd_loop rest (b + 1 - n) (total + n) from rfl] at hres
        have hok2 : decide (n ≤ b + 1) && okBounded rest (b + 1 - n) = true := by
          simpa [okBounded] using hok
        simp only [Bool.and_eq_true, decide_eq_true_eq] at hok2
        rcases ih (b + 1 - n) (total + n) t hok2.2 hres with h | h
        · left
          rw [h]
          have : n ≤ b + 1 := hok2.1
          push_cast
          omega
        · right; exact h

/-- Claim C10: for every oracle of `write` outcomes respecting the POSIX
bound (each success writes at most the remaining bytes) and every
requested byte count, when `write_fd` returns it returns either exactly
the requested count — after retrying short writes and `EINTR`/`EAGAIN` —
or `-1` on an unrecoverable error; it never reports a partial count. -/
theorem claim_C10_write_fd_total (oracle : List WriteOutcome) (bytes : Nat)
    (t : Int) (hok : okBounded oracle bytes = true)
    (hres : write_fd oracle bytes = some t) :
    t = (bytes : Int) ∨ t = -1 := by
  rcases write_fd_loop_total oracle bytes 0 t hok hres with h | h
  · left; omega
  · right; exact h

/-- Satisfiability witness for claim C10: two short writes of 2 and 3
bytes with an `EINTR` retry in between complete a 5-byte request. -/
theorem claim_C10_write_fd_total_witness :
    okBounded [WriteOutcome.ok 2, WriteOutcome.eintr, WriteOutcome.ok 3] 5 = true ∧
    write_fd [WriteOutcome.ok 2, WriteOutcome.eintr, WriteOutcome.ok 3] 5 = some 5 ∧
    ((5 : Int) = ((5 : Nat) : Int) ∨ (5 : Int) = -1) :=
  ⟨by decide, by decide,
    claim_C10_write_fd_total [WriteOutcome.ok 2, WriteOutcome.eintr, WriteOutcome.ok 3]
      5 5 (by decide) (by decide)⟩

/-- `#define XFORM_RED_MASK 0x000000ff`. -/
def XFORM_RED_MASK : Nat := 0x000000ff

/-- `#define XFORM_GREEN_MASK 0x0000ff00`. -/
def XFORM_GREEN_MASK : Nat := 0x0000ff00

/-- `#define XFORM_BLUE_MASK 0x00ff0000`. -/
def XFORM_BLUE_MASK : Nat := 0x00ff0000

/-- `#define XFORM_RGB_MASK (XFORM_RED_MASK | XFORM_GREEN_MASK | XFORM_BLUE_MASK)`. -/
def XFORM_RGB_MASK : Nat := XFORM_RED_MASK ||| XFORM_GREEN_MASK ||| XFORM_BLUE_MASK

/-- `#define XFORM_BG_MASK (XFORM_BLUE_MASK | XFORM_GREEN_MASK)`. -/
def XFORM_BG_MASK : Nat := XFORM_BLUE_MASK ||| XFORM_GREEN_MASK

/-- `#define XFORM_RG_MASK (XFORM_RED_MASK | XFORM_GREEN_MASK)`. -/
def XFORM_RG_MASK : Nat := XFORM_RED_MASK ||| XFORM_GREEN_MASK

/-- The `unsigned *quad_row = (unsigned *)row` aliasing of `pack_rgba`:
four consecutive bytes form one little-endian 32-bit word. -/
def bytesToWords : List Nat → List Nat
  | b0 :: b1 :: b2 :: b3 :: rest =>
      (b0 + 2 ^ 8 * b1 + 2 ^ 16 * b2 + 2 ^ 24 * b3) :: bytesToWords rest
  | _ => []

/-- Little-endian bytes of a list of 32-bit words (the view of the
destination buffer of `pack_rgba` as bytes). -/
def wordsToBytes : List Nat → List Nat
  | w :: rest =>
      w % 2 ^ 8 :: w / 2 ^ 8 % 2 ^ 8 :: w / 2 ^ 16 % 2 ^ 8 :: w / 2 ^ 24 % 2 ^ 8 ::
        wordsToBytes rest
  | [] => []

/-- The `while (num_quads > 0)` loop of `pack_rgba` (lines 822-830): each
group of four source words is packed into three destination words.
Word arithmetic is on 32-bit unsigned values, hence the `% 2 ^ 32` on the
shifted operands. -/
def pack_rgba_quads : List Nat → List Nat
  | q0 :: q1 :: q2 :: q3 :: rest =>
      ((q0 &&& XFORM_RGB_MASK) ||| ((q1 <<< 24) % 2 ^ 32)) ::
      (((q1 &&& XFORM_BG_MASK) >>> 8) ||| (((q2 &&& XFORM_RG_MASK) <<< 16) % 2 ^ 32)) ::
      (((q2 &&& XFORM_BLUE_MASK) >>> 16) ||| ((q3 <<< 8) % 2 ^ 32)) ::
      pack_rgba_quads rest
  | _ => []

/-- The `while (leftover_pixels > 0)` loop of `pack_rgba` (lines 839-846):
copy three bytes, skip the padding byte. -/
def pack_rgba_leftover : Nat → List Nat → List Nat
  | 0, _ => []
  | n + 1, b0 :: b1 :: b2 :: _ :: rest => b0 :: b1 :: b2 :: pack_rgba_leftover n rest
  | _ + 1, _ => []

/-- `pack_rgba` (lines 803-847): `num_quads = num_pixels / 4` groups of four
pixels are packed word-wise, then `num_pixels & 3` leftover pixels are
packed byte-wise. The row holds `4 * num_pixels` bytes. -/
def pack_rgba (row : List Nat) (num_pixels : Nat) : List Nat :=
  wordsToBytes (pack_rgba_quads (bytesToWords (row.take (16 * (num_pixels / 4))))) ++
    pack_rgba_leftover (num_pixels % 4) (row.drop (16 * (num_pixels / 4)))

/-- Reference repacking: drop every fourth (padding) channel of an RGBX
sample list — the tight RGB layout the claim describes. -/
def rgbxToRgb : List Nat → List Nat
  | r :: g :: b :: _ :: rest => r :: g :: b :: rgbxToRgb rest
  | _ => []

example :
    pack_rgba [1, 2, 3, 99, 4, 5, 6, 98, 7, 8, 9, 97, 10, 11, 12, 96] 4 =
      [1, 2, 3, 4, 5, 6, 7, 8, 9, 10, 11, 12] := by decide

example :
    pack_rgba [1, 2, 3, 99, 4, 5, 6, 98, 7, 8, 9, 97, 10, 11, 12, 96, 13, 14, 15, 95] 5 =
      [1, 2, 3, 4, 5, 6, 7, 8, 9, 10, 11, 12, 13, 14, 15] := by decide

/-- Masking with a shifted mask then shifting is masking the shifted word. -/
theorem and_shiftLeft_shiftRight (w m k : Nat) :
    (w &&& (m <<< k)) >>> k = (w >>> k) &&& m := by
  apply Nat.eq_of_testBit_eq
  intro i
  simp [Nat.testBit_shiftRight, Nat.testBit_and, Nat.testBit_shiftLeft, Nat.le_add_right,
    Nat.add_sub_cancel_left]

/-- Bitwise-or with a disjoint high part is addition. -/
theorem or_two_pow_mul (x c n : Nat) (h : x < 2 ^ n) :
    x ||| 2 ^ n * c = x + 2 ^ n * c := by
  rw [Nat.or_comm, ← Nat.mul_add_lt_is_or h]
  omega

/-- `XFORM_RGB_MASK` keeps the low 24 bits. -/
theorem XFORM_RGB_MASK_eq : XFORM_RGB_MASK = 2 ^ 24 - 1 := by decide

/-- `XFORM_BG_MASK` keeps bits 8..23. -/
theorem XFORM_BG_MASK_eq : XFORM_BG_MASK = (2 ^ 16 - 1) <<< 8 := by decide

/-- `XFORM_RG_MASK` keeps the low 16 bits. -/
theorem XFORM_RG_MASK_eq : XFORM_RG_MASK = 2 ^ 16 - 1 := by decide

/-- `XFORM_BLUE_MASK` keeps bits 16..23. -/
theorem XFORM_BLUE_MASK_eq : XFORM_BLUE_MASK = (2 ^ 8 - 1) <<< 16 := by decide

/-- First destination word of a quad group: bytes `R0 G0 B0 R1`. -/
theorem pack_rgba_word0 (b0 b1 b2 b3 b4 b5 b6 b7 : Nat)
    (h0 : b0 < 2 ^ 8) (h1 : b1 < 2 ^ 8) (h2 : b2 < 2 ^ 8) (h4 : b4 < 2 ^ 8) :
    ((b0 + 2 ^ 8 * b1 + 2 ^ 16 * b2 + 2 ^ 24 * b3) &&& XFORM_RGB_MASK) |||
        (((b4 + 2 ^ 8 * b5 + 2 ^ 16 * b6 + 2 ^ 24 * b7) <<< 24) % 2 ^ 32) =
      b0 + 2 ^ 8 * b1 + 2 ^ 16 * b2 + 2 ^ 24 * b4 := by
  rw [XFORM_RGB_MASK_eq, Nat.and_pow_two_sub_one_eq_mod, Nat.shiftLeft_eq]
  have e1 : (b0 + 2 ^ 8 * b1 + 2 ^ 16 * b2 + 2 ^ 24 * b3) % 2 ^ 24 =
      b0 + 2 ^ 8 * b1 + 2 ^ 16 * b2 := by omega
  have e2 : (b4 + 2 ^ 8 * b5 + 2 ^ 16 * b6 + 2 ^ 24 * b7) * 2 ^ 24 % 2 ^ 32 =
      2 ^ 24 * b4 := by omega
  rw [e1, e2, or_two_pow_mul _ _ 24 (by omega)]

/-- Second destination word of a quad group: bytes `G1 B1 R2 G2`. -/
theorem pack_rgba_word1 (b4 b5 b6 b7 b8 b9 b10 b11 : Nat)
    (h4 : b4 < 2 ^ 8) (h5 : b5 < 2 ^ 8) (h6 : b6 < 2 ^ 8)
    (h8 : b8 < 2 ^ 8) (h9 : b9 < 2 ^ 8) :
    (((b4 + 2 ^ 8 * b5 + 2 ^ 16 * b6 + 2 ^ 24 * b7) &&& XFORM_BG_MASK) >>> 8) |||
        ((((b8 + 2 ^ 8 * b9 + 2 ^ 16 * b10 + 2 ^ 24 * b11) &&& XFORM_RG_MASK) <<< 16) %
          2 ^ 32) =
      b5 + 2 ^ 8 * b6 + 2 ^ 16 * b8 + 2 ^ 24 * b9 := by
  rw [XFORM_BG_MASK_eq, and_shiftLeft_shiftRight, XFORM_RG_MASK_eq,
    Nat.and_pow_two_sub_one_eq_mod, Nat.and_pow_two_sub_one_eq_mod,
    Nat.shiftRight_eq_div_pow, Nat.shiftLeft_eq]
  have e1 : (b4 + 2 ^ 8 * b5 + 2 ^ 16 * b6 + 2 ^ 24 * b7) / 2 ^ 8 % 2 ^ 16 =
      b5 + 2 ^ 8 * b6 := by omega
  have e2 : (b8 + 2 ^ 8 * b9 + 2 ^ 16 * b10 + 2 ^ 24 * b11) % 2 ^ 16 * 2 ^ 16 % 2 ^ 32 =
      2 ^ 16 * (b8 + 2 ^ 8 * b9) := by omega
  rw [e1, e2, or_two_pow_mul _ _ 16 (by omega)]
  omega

/-- Third destination word of a quad group: bytes `B2 R3 G3 B3`. -/
theorem pack_rgba_word2 (b8 b9 b10 b11 b12 b13 b14 b15 : Nat)
    (h8 : b8 < 2 ^ 8) (h9 : b9 < 2 ^ 8) (h10 : b10 < 2 ^ 8)
    (h12 : b12 < 2 ^ 8) (h13 : b13 < 2 ^ 8) (h14 : b14 < 2 ^ 8) :
    (((b8 + 2 ^ 8 * b9 + 2 ^ 16 * b10 + 2 ^ 24 * b11) &&& XFORM_BLUE_MASK) >>> 16) |||
        (((b12 + 2 ^ 8 * b13 + 2 ^ 16 * b14 + 2 ^ 24 * b15) <<< 8) % 2 ^ 32) =
      b10 + 2 ^ 8 * b12 + 2 ^ 16 * b13 + 2 ^ 24 * b14 := by
  rw [XFORM_BLUE_MASK_eq, and_shiftLeft_shiftRight,
    Nat.and_pow_two_sub_one_eq_mod, Nat.shiftRight_eq_div_pow, Nat.shiftLeft_eq]
  have e1 : (b8 + 2 ^ 8 * b9 + 2 ^ 16 * b10 + 2 ^ 24 * b11) / 2 ^ 16 % 2 ^ 8 = b10 := by
    omega
  have e2 : (b12 + 2 ^ 8 * b13 + 2 ^ 16 * b14 + 2 ^ 24 * b15) * 2 ^ 8 % 2 ^ 32 =
      2 ^ 8 * (b12 + 2 ^ 8 * b13 + 2 ^ 16 * b14) := by omega
  rw [e1, e2, or_two_pow_mul _ _ 8 (by omega)]
  omega

/-- Little-endian bytes of a packed destination word. -/
theorem wordsToBytes_head (c0 c1 c2 c3 : Nat) (rest : List Nat)
    (h0 : c0 < 2 ^ 8) (h1 : c1 < 2 ^ 8) (h2 : c2 < 2 ^ 8) (h3 : c3 < 2 ^ 8) :
    wordsToBytes ((c0 + 2 ^ 8 * c1 + 2 ^ 16 * c2 + 2 ^ 24 * c3) :: rest) =
      c0 :: c1 :: c2 :: c3 :: wordsToBytes rest := by
  rw [wordsToBytes]
  have e0 : (c0 + 2 ^ 8 * c1 + 2 ^ 16 * c2 + 2 ^ 24 * c3) % 2 ^ 8 = c0 := by omega
  have e1 : (c0 + 2 ^ 8 * c1 + 2 ^ 16 * c2 + 2 ^ 24 * c3) / 2 ^ 8 % 2 ^ 8 = c1 := by omega
  have e2 : (c0 + 2 ^ 8 * c1 + 2 ^ 16 * c2 + 2 ^ 24 * c3) / 2 ^ 16 % 2 ^ 8 = c2 := by omega
  have e3 : (c0 + 2 ^ 8 * c1 + 2 ^ 16 * c2 + 2 ^ 24 * c3) / 2 ^ 24 % 2 ^ 8 = c3 := by omega
  rw [e0, e1, e2, e3]

/-- The quad loop of `pack_rgba` realises the tight repacking on any block
of `16 * n` bytes (four pixels per iteration), despite operating in place:
writes within one iteration land only on words already consumed. -/
theorem pack_rgba_quads_spec : ∀ (n : Nat) (l : List Nat), l.length = 16 * n →
    (∀ b ∈ l, b < 2 ^ 8) →
    wordsToBytes (pack_rgba_quads (bytesToWords l)) = rgbxToRgb l := by
  intro n
  induction n with
  | zero =>
    intro l hlen _
    have : l = [] := List.eq_nil_of_length_eq_zero (by omega)
    subst this
    rfl
  | succ k ih =>
    intro l hlen hb
    rcases l with _ | ⟨b0, _ | ⟨b1, _ | ⟨b2, _ | ⟨b3, _ | ⟨b4, _ | ⟨b5, _ | ⟨b6, _ | ⟨b7,
      _ | ⟨b8, _ | ⟨b9, _ | ⟨b10, _ | ⟨b11, _ | ⟨b12, _ | ⟨b13, _ | ⟨b14, _ | ⟨b15,
      rest⟩⟩⟩⟩⟩⟩⟩⟩⟩⟩⟩⟩⟩⟩⟩⟩
    all_goals simp only [List.length_cons, List.length_nil] at hlen
    all_goals try (exfalso; omega)
    have hb0 : b0 < 2 ^ 8 := hb b0 (by simp)
    have hb1 : b1 < 2 ^ 8 := hb b1 (by simp)
    have hb2 : b2 < 2 ^ 8 := hb b2 (by simp)
    have hb4 : b4 < 2 ^ 8 := hb b4 (by simp)
    have hb5 : b5 < 2 ^ 8 := hb b5 (by simp)
    have hb6 : b6 < 2 ^ 8 := hb b6 (by simp)
    have hb8 : b8 < 2 ^ 8 := hb b8 (by simp)
    have hb9 : b9 < 2 ^ 8 := hb b9 (by simp)
    have hb10 : b10 < 2 ^ 8 := hb b10 (by simp)
    have hb12 : b12 < 2 ^ 8 := hb b12 (by simp)
    have hb13 : b13 < 2 ^ 8 := hb b13 (by simp)
    have hb14 : b14 < 2 ^ 8 := hb b14 (by simp)
    simp only [bytesToWords, pack_rgba_quads]
    rw [pack_rgba_word0 b0 b1 b2 b3 b4 b5 b6 b7 hb0 hb1 hb2 hb4,
      pack_rgba_word1 b4 b5 b6 b7 b8 b9 b10 b11 hb4 hb5 hb6 hb8 hb9,
      pack_rgba_word2 b8 b9 b10 b11 b12 b13 b14 b15 hb8 hb9 hb10 hb12 hb13 hb14,
      wordsToBytes_head b0 b1 b2 b4 _ hb0 hb1 hb2 hb4,
      wordsToBytes_head b5 b6 b8 b9 _ hb5 hb6 hb8 hb9,
      wordsToBytes_head b10 b12 b13 b14 _ hb10 hb12 hb13 hb14]
    simp only [rgbxToRgb]
    rw [ih rest (by omega) fun b hbm => hb b (by simp [hbm])]

/-- The leftover loop of `pack_rgba` realises the tight repacking on any
block of `4 * k` bytes (one pixel per iteration). -/
theorem pack_rgba_leftover_spec : ∀ (k : Nat) (l : List Nat), l.length = 4 * k →
    pack_rgba_leftover k l = rgbxToRgb l := by
  intro k
  induction k with
  | zero =>
    intro l hlen
    have : l = [] := List.eq_nil_of_length_eq_zero (by omega)
    subst this
    rfl
  | succ j ih =>
    intro l hlen
    rcases l with _ | ⟨b0, _ | ⟨b1, _ | ⟨b2, _ | ⟨b3, rest⟩⟩⟩⟩
    all_goals simp only [List.length_cons, List.length_nil] at hlen
    all_goals try (exfalso; omega)
    simp only [pack_rgba_leftover, rgbxToRgb]
    rw [ih rest (by omega)]

/-- `rgbxToRgb` distributes over an append at a whole-pixel boundary. -/
theorem rgbxToRgb_append : ∀ (n : Nat) (l1 l2 : List Nat), l1.length = 4 * n →
    rgbxToRgb (l1 ++ l2) = rgbxToRgb l1 ++ rgbxToRgb l2 := by
  intro n
  induction n with
  | zero =>
    intro l1 l2 hlen
    have : l1 = [] := List.eq_nil_of_length_eq_zero (by omega)
    subst this
    rfl
  | succ j ih =>
    intro l1 l2 hlen
    rcases l1 with _ | ⟨b0, _ | ⟨b1, _ | ⟨b2, _ | ⟨b3, rest⟩⟩⟩⟩
    all_goals simp only [List.length_cons, List.length_nil] at hlen
    all_goals try (exfalso; omega)
    simp only [List.cons_append, rgbxToRgb, List.append_eq]
    rw [ih rest l2 (by omega)]

/-- `pack_rgba` equals the tight repacking on every row of `4 * num_pixels`
bytes. -/
theorem pack_rgba_eq (row : List Nat) (num_pixels : Nat)
    (hlen : row.length = 4 * num_pixels) (hb : ∀ b ∈ row, b < 2 ^ 8) :
    pack_rgba row num_pixels = rgbxToRgb row := by
  rw [pack_rgba]
  have htake : (row.take (16 * (num_pixels / 4))).length = 16 * (num_pixels / 4) := by
    rw [List.length_take]
    omega
  have hdrop : (row.drop (16 * (num_pixels / 4))).length = 4 * (num_pixels % 4) := by
    rw [List.length_drop]
    omega
  rw [pack_rgba_quads_spec (num_pixels / 4) _ htake
      fun b hbm => hb b (List.take_subset _ _ hbm),
    pack_rgba_leftover_spec (num_pixels % 4) _ hdrop,
    ← rgbxToRgb_append (4 * (num_pixels / 4)) _ _ (by rw [htake]; ring),
    List.take_append_drop]

/-- Pointwise content of the tight repacking: channel `c < 3` of pixel
`i` comes from channel `c` of the 4-channel source pixel `i`. -/
theorem rgbxToRgb_get? : ∀ (np : Nat) (l : List Nat), l.length = 4 * np →
    ∀ i c : Nat, i < np → c < 3 →
    (rgbxToRgb l).get? (3 * i + c) = l.get? (4 * i + c) := by
  intro np
  induction np with
  | zero => intro l hlen i c hi hc; omega
  | succ j ih =>
    intro l hlen i c hi hc
    rcases l with _ | ⟨b0, _ | ⟨b1, _ | ⟨b2, _ | ⟨b3, rest⟩⟩⟩⟩
    all_goals simp only [List.length_cons, List.length_nil] at hlen
    all_goals try (exfalso; omega)
    cases i with
    | zero =>
      interval_cases c <;> rfl
    | succ i2 =>
      simp only [rgbxToRgb]
      rw [show 3 * (i2 + 1) + c = 3 * i2 + c + 1 + 1 + 1 from by ring,
        show 4 * (i2 + 1) + c = 4 * i2 + c + 1 + 1 + 1 + 1 from by ring]
      simp only [List.get?_cons_succ]
      exact ih rest (by omega) i2 c (by omega) hc

/-- Length of the tight repacking. -/
theorem rgbxToRgb_length : ∀ (np : Nat) (l : List Nat), l.length = 4 * np →
    (rgbxToRgb l).length = 3 * np := by
  intro np
  induction np with
  | zero =>
    intro l hlen
    have : l = [] := List.eq_nil_of_length_eq_zero (by omega)
    subst this
    rfl
  | succ j ih =>
    intro l hlen
    rcases l with _ | ⟨b0, _ | ⟨b1, _ | ⟨b2, _ | ⟨b3, rest⟩⟩⟩⟩
    all_goals simp only [List.length_cons, List.length_nil] at hlen
    all_goals try (exfalso; omega)
    simp only [rgbxToRgb, List.length_cons]
    rw [ih rest (by omega)]
    ring

/-- The `const unsigned *from = (unsigned *)row` aliasing of `pack_rgba16`:
two consecutive 16-bit samples form one little-endian 32-bit word. -/
def unitsToWords : List Nat → List Nat
  | u0 :: u1 :: rest => (u0 + 2 ^ 16 * u1) :: unitsToWords rest
  | _ => []

/-- 16-bit samples of a list of 32-bit words. -/
def wordsToUnits : List Nat → List Nat
  | w :: rest => w % 2 ^ 16 :: w / 2 ^ 16 % 2 ^ 16 :: wordsToUnits rest
  | [] => []

/-- `pack_rgba16` (lines 856-880): the `while (num_pixels > 1)` loop packs
two pixels (four source words) into three destination words; the trailing
`if (num_pixels)` copies the final pixel's two words verbatim (padding
word included). -/
def pack_rgba16_loop : Nat → List Nat → List Nat
  | np, w0 :: w1 :: w2 :: w3 :: rest =>
      if 1 < np then
        w0 ::
        ((w1 &&& 0x0000ffff) ||| (((w2 &&& 0x0000ffff) <<< 16) % 2 ^ 32)) ::
        (((w2 &&& 0xffff0000) >>> 16) ||| (((w3 &&& 0x0000ffff) <<< 16) % 2 ^ 32)) ::
        pack_rgba16_loop (np - 2) rest
      else if np ≠ 0 then [w0, w1] else []
  | np, l => if np ≠ 0 then l.take 2 else []

/-- `pack_rgba16` on a row of `4 * num_pixels` 16-bit samples. -/
def pack_rgba16 (row_units : List Nat) (num_pixels : Nat) : List Nat :=
  wordsToUnits (pack_rgba16_loop num_pixels (unitsToWords row_units))

example :
    pack_rgba16 [1, 2, 3, 99, 4, 5, 6, 98] 2 = [1, 2, 3, 4, 5, 6] := by decide

example :
    pack_rgba16 [1, 2, 3, 99, 4, 5, 6, 98, 7, 8, 9, 97] 3 =
      [1, 2, 3, 4, 5, 6, 7, 8, 9, 97] := by decide

/-- Middle destination word of a two-pixel group: samples `B0 R1`. -/
theorem pack_rgba16_word1 (u2 u3 u4 u5 : Nat) (h2 : u2 < 2 ^ 16) (h4 : u4 < 2 ^ 16) :
    ((u2 + 2 ^ 16 * u3) &&& 0x0000ffff) |||
        ((((u4 + 2 ^ 16 * u5) &&& 0x0000ffff) <<< 16) % 2 ^ 32) =
      u2 + 2 ^ 16 * u4 := by
  rw [show (0x0000ffff : Nat) = 2 ^ 16 - 1 from by norm_num,
    Nat.and_pow_two_sub_one_eq_mod, Nat.and_pow_two_sub_one_eq_mod, Nat.shiftLeft_eq]
  have e1 : (u2 + 2 ^ 16 * u3) % 2 ^ 16 = u2 := by omega
  have e2 : (u4 + 2 ^ 16 * u5) % 2 ^ 16 * 2 ^ 16 % 2 ^ 32 = 2 ^ 16 * u4 := by omega
  rw [e1, e2, or_two_pow_mul _ _ 16 (by omega)]

/-- Last destination word of a two-pixel group: samples `G1 B1`. -/
theorem pack_rgba16_word2 (u4 u5 u6 u7 : Nat)
    (h4 : u4 < 2 ^ 16) (h5 : u5 < 2 ^ 16) (h6 : u6 < 2 ^ 16) :
    (((u4 + 2 ^ 16 * u5) &&& 0xffff0000) >>> 16) |||
        ((((u6 + 2 ^ 16 * u7) &&& 0x0000ffff) <<< 16) % 2 ^ 32) =
      u5 + 2 ^ 16 * u6 := by
  rw [show (0xffff0000 : Nat) = (2 ^ 16 - 1) <<< 16 from by decide,
    and_shiftLeft_shiftRight,
    show (0x0000ffff : Nat) = 2 ^ 16 - 1 from by norm_num,
    Nat.and_pow_two_sub_one_eq_mod, Nat.and_pow_two_sub_one_eq_mod,
    Nat.shiftRight_eq_div_pow, Nat.shiftLeft_eq]
  have e1 : (u4 + 2 ^ 16 * u5) / 2 ^ 16 % 2 ^ 16 = u5 := by omega
  have e2 : (u6 + 2 ^ 16 * u7) % 2 ^ 16 * 2 ^ 16 % 2 ^ 32 = 2 ^ 16 * u6 := by omega
  rw [e1, e2, or_two_pow_mul _ _ 16 (by omega)]

/-- 16-bit samples of a packed destination word. -/
theorem wordsToUnits_head (c0 c1 : Nat) (rest : List Nat)
    (h0 : c0 < 2 ^ 16) (h1 : c1 < 2 ^ 16) :
    wordsToUnits ((c0 + 2 ^ 16 * c1) :: rest) = c0 :: c1 :: wordsToUnits rest := by
  rw [wordsToUnits]
  have e0 : (c0 + 2 ^ 16 * c1) % 2 ^ 16 = c0 := by omega
  have e1 : (c0 + 2 ^ 16 * c1) / 2 ^ 16 % 2 ^ 16 = c1 := by omega
  rw [e0, e1]

/-- `pack_rgba16` produces the tight repacking, possibly followed by one
stray padding sample when `num_pixels` is odd (the final verbatim copy of
two whole words covers 4 samples of the last pixel). -/
theorem pack_rgba16_prefix : ∀ (np : Nat) (units : List Nat),
    units.length = 4 * np → (∀ u ∈ units, u < 2 ^ 16) →
    ∃ extra, pack_rgba16 units np = rgbxToRgb units ++ extra
  | 0, units, hlen, _ => by
    have : units = [] := List.eq_nil_of_length_eq_zero (by omega)
    subst this
    exact ⟨[], rfl⟩
  | 1, units, hlen, hu => by
    rcases units with _ | ⟨u0, _ | ⟨u1, _ | ⟨u2, _ | ⟨u3, rest⟩⟩⟩⟩
    all_goals simp only [List.length_cons, List.length_nil] at hlen
    all_goals try (exfalso; omega)
    have hrest : rest = [] := List.eq_nil_of_length_eq_zero (by omega)
    subst hrest
    refine ⟨[u3], ?_⟩
    have h0 : u0 < 2 ^ 16 := hu u0 (by simp)
    have h1 : u1 < 2 ^ 16 := hu u1 (by simp)
    have h2 : u2 < 2 ^ 16 := hu u2 (by simp)
    have h3 : u3 < 2 ^ 16 := hu u3 (by simp)
    show wordsToUnits (pack_rgba16_loop 1 (unitsToWords [u0, u1, u2, u3])) = _
    simp only [unitsToWords]
    rw [show pack_rgba16_loop 1 [u0 + 2 ^ 16 * u1, u2 + 2 ^ 16 * u3] =
        [u0 + 2 ^ 16 * u1, u2 + 2 ^ 16 * u3] from rfl,
      show ([u0 + 2 ^ 16 * u1, u2 + 2 ^ 16 * u3] : List Nat) =
        (u0 + 2 ^ 16 * u1) :: (u2 + 2 ^ 16 * u3) :: [] from rfl,
      wordsToUnits_head u0 u1 _ h0 h1, wordsToUnits_head u2 u3 _ h2 h3]
    rfl
  | (n + 2), units, hlen, hu => by
    rcases units with _ | ⟨u0, _ | ⟨u1, _ | ⟨u2, _ | ⟨u3, _ | ⟨u4, _ | ⟨u5, _ | ⟨u6,
      _ | ⟨u7, rest⟩⟩⟩⟩⟩⟩⟩⟩
    all_goals simp only [List.length_cons, List.length_nil] at hlen
    all_goals try (exfalso; omega)
    have h0 : u0 < 2 ^ 16 := hu u0 (by simp)
    have h1 : u1 < 2 ^ 16 := hu u1 (by simp)
    have h2 : u2 < 2 ^ 16 := hu u2 (by simp)
    have h4 : u4 < 2 ^ 16 := hu u4 (by simp)
    have h5 : u5 < 2 ^ 16 := hu u5 (by simp)
    have h6 : u6 < 2 ^ 16 := hu u6 (by simp)
    obtain ⟨extra, hex⟩ := pack_rgba16_prefix n rest (by omega)
      fun u hu2 => hu u (by simp [hu2])
    refine ⟨extra, ?_⟩
    show wordsToUnits (pack_rgba16_loop (n + 2)
      (unitsToWords (u0 :: u1 :: u2 :: u3 :: u4 :: u5 :: u6 :: u7 :: rest))) = _
    simp only [unitsToWords]
    rw [pack_rgba16_loop, if_pos (by omega)]
    rw [pack_rgba16_word1 u2 u3 u4 u5 h2 h4, pack_rgba16_word2 u4 u5 u6 u7 h4 h5 h6]
    rw [wordsToUnits_head u0 u1 _ h0 h1, wordsToUnits_head u2 u4 _ h2 h4,
      wordsToUnits_head u5 u6 _ h5 h6]
    rw [show n + 2 - 2 = n from by omega]
    rw [show wordsToUnits (pack_rgba16_loop n (unitsToWords rest)) =
      pack_rgba16 rest n from rfl]
    rw [hex]
    simp only [rgbxToRgb, List.cons_append]

/-- Claim C9: `pack_rgba` and `pack_rgba16` repack a scanline in place from
padded 4-component RGBX to tight RGB: for every pixel count (including
counts not divisible by the 4-pixel / 2-pixel loop widths), every pixel
`i < num_pixels` and channel `c < 3`, the output byte (respectively 16-bit
sample) at position `3 * i + c` equals the input channel at position
`4 * i + c`. -/
theorem claim_C9_pack_rgba :
    (∀ (row : List Nat) (num_pixels : Nat), row.length = 4 * num_pixels →
      (∀ b ∈ row, b < 2 ^ 8) → ∀ i c : Nat, i < num_pixels → c < 3 →
      (pack_rgba row num_pixels).get? (3 * i + c) = row.get? (4 * i + c)) ∧
    (∀ (row : List Nat) (num_pixels : Nat), row.length = 4 * num_pixels →
      (∀ u ∈ row, u < 2 ^ 16) → ∀ i c : Nat, i < num_pixels → c < 3 →
      (pack_rgba16 row num_pixels).get? (3 * i + c) = row.get? (4 * i + c)) := by
  constructor
  · intro row np hlen hb i c hi hc
    rw [pack_rgba_eq row np hlen hb]
    exact rgbxToRgb_get? np row hlen i c hi hc
  · intro row np hlen hu i c hi hc
    obtain ⟨extra, hex⟩ := pack_rgba16_prefix np row hlen hu
    rw [hex, List.get?_append (by rw [rgbxToRgb_length np row hlen]; omega)]
    exact rgbxToRgb_get? np row hlen i c hi hc

/-- Satisfiability witness for claim C9, on two-pixel rows: the blue
channel of pixel 1 lands at output position 5 (8-bit) and the green
channel of pixel 1 at output position 4 (16-bit). -/
theorem claim_C9_pack_rgba_witness :
    (pack_rgba [1, 2, 3, 9, 4, 5, 6, 8] 2).get? 5 =
      ([1, 2, 3, 9, 4, 5, 6, 8] : List Nat).get? 6 ∧
    (pack_rgba16 [1, 2, 3, 9, 4, 5, 6, 8] 2).get? 4 =
      ([1, 2, 3, 9, 4, 5, 6, 8] : List Nat).get? 5 :=
  ⟨claim_C9_pack_rgba.1 [1, 2, 3, 9, 4, 5, 6, 8] 2 (by decide) (by decide) 1 2
      (by decide) (by decide),
    claim_C9_pack_rgba.2 [1, 2, 3, 9, 4, 5, 6, 8] 2 (by decide) (by decide) 1 1
      (by decide) (by decide)⟩

end IppTransform
